import Mathlib

/-!
Verification of the runtime configuration injection mechanism of the
Next-Static-Runtime-Docker-Env repository.

The repository's executable logic is `entrypoint.sh`:

  #!/bin/sh
  set -e
  envsubst < /usr/share/nginx/html/env.template.js > /usr/share/nginx/html/env.js
  exec "$@"

together with the client-side read in `src/app/page.tsx`:

  const url = window?.env?.API_URL;
  setApiUrl(url || "");

`envsubst` is GNU gettext's envsubst utility, invoked with no SHELL-FORMAT
argument (all-variables mode).  Its substitution loop (`subst_from_stdin`)
scans the input once; on `$` it optionally consumes `{`, then a maximal run
of name characters; a braced reference must be closed by `}` to be
substituted; a substituted variable is replaced by its value from the
environment, or by nothing when it is unset; an invalid reference is copied
through literally, with the terminating character pushed back and rescanned.
The Lean development below embeds this loop (`envsubstFuel`), the shell
entrypoint around it (`entrypoint`), and the page component's fallback read
(`homeApiUrl`), and proves the spec's testable properties about them.
-/

namespace NextStatic

/-- ASCII letter or underscore: the characters envsubst accepts as the first
character of a variable name after `$` or `${`. -/
def isNameStart (c : Char) : Bool := c.isAlpha || c == '_'

/-- ASCII letter, digit or underscore: the characters envsubst accepts as
continuation characters of a variable name. -/
def isNameChar (c : Char) : Bool := c.isAlpha || c.isDigit || c == '_'

/-- A nonempty character list forming a valid shell variable name. -/
def validName : List Char → Bool
  | [] => false
  | c :: cs => isNameStart c && cs.all isNameChar

/-- The list is empty or does not begin with a name character. -/
def headNotName : List Char → Bool
  | [] => true
  | c :: _ => !(isNameChar c)

/-- The characters substituted for a variable reference: the bound value
when the variable is set, nothing when it is unset (getenv returns NULL and
envsubst prints nothing). -/
def valueOf (env : String → Option String) (n : String) : List Char :=
  match env n with
  | some v => v.data
  | none => []

/-- The substitution loop of GNU gettext envsubst (`subst_from_stdin`,
all-variables mode), as invoked by `entrypoint.sh`: copy characters through;
on `$`, optionally consume `{`, then a maximal run of name characters; a
well-formed reference is replaced by `valueOf`; an ill-formed one is copied
literally with the offending character rescanned.  The fuel argument bounds
the recursion; every recursive call consumes at least one input character,
so fuel equal to the input length suffices. -/
def envsubstFuel (env : String → Option String) : Nat → List Char → List Char
  | 0, _ => []
  | _ + 1, [] => []
  | fuel + 1, c :: cs =>
    if c = '$' then
      match cs with
      | [] => ['$']
      | d :: ds =>
        if d = '{' then
          match ds with
          | [] => ['$', '{']
          | e :: es =>
            if isNameStart e then
              let name := (e :: es).takeWhile isNameChar
              let rest := (e :: es).dropWhile isNameChar
              if rest.head? = some '}' then
                valueOf env ⟨name⟩ ++ envsubstFuel env fuel rest.tail
              else
                '$' :: '{' :: (name ++ envsubstFuel env fuel rest)
            else
              '$' :: '{' :: envsubstFuel env fuel (e :: es)
        else if isNameStart d then
          valueOf env ⟨(d :: ds).takeWhile isNameChar⟩ ++
            envsubstFuel env fuel ((d :: ds).dropWhile isNameChar)
        else
          '$' :: envsubstFuel env fuel (d :: ds)
    else
      c :: envsubstFuel env fuel cs

/-- `resolve(template, bindings)`: the output of `envsubst` on the template
characters with the process environment `env` as binding set. -/
def envsubst (env : String → Option String) (l : List Char) : List Char :=
  envsubstFuel env l.length l

/-- A segment of the template as envsubst's scanner sees it: a literal
character copied through, an unbraced variable reference `$name`, or a
braced variable reference `${name}`. -/
inductive Item where
  | lit (c : Char)
  | var (name : String)
  | varBraced (name : String)
deriving DecidableEq

/-- The tokenisation envsubst's loop performs on the input, with the same
branch structure as `envsubstFuel` but recording segments instead of
emitting output.  It does not depend on the environment: in all-variables
mode the validity of a reference is purely syntactic. -/
def scanFuel : Nat → List Char → List Item
  | 0, _ => []
  | _ + 1, [] => []
  | fuel + 1, c :: cs =>
    if c = '$' then
      match cs with
      | [] => [.lit '$']
      | d :: ds =>
        if d = '{' then
          match ds with
          | [] => [.lit '$', .lit '{']
          | e :: es =>
            if isNameStart e then
              let name := (e :: es).takeWhile isNameChar
              let rest := (e :: es).dropWhile isNameChar
              if rest.head? = some '}' then
                .varBraced ⟨name⟩ :: scanFuel fuel rest.tail
              else
                .lit '$' :: .lit '{' :: (name.map .lit ++ scanFuel fuel rest)
            else
              .lit '$' :: .lit '{' :: scanFuel fuel (e :: es)
        else if isNameStart d then
          .var ⟨(d :: ds).takeWhile isNameChar⟩ ::
            scanFuel fuel ((d :: ds).dropWhile isNameChar)
        else
          .lit '$' :: scanFuel fuel (d :: ds)
    else
      .lit c :: scanFuel fuel cs

/-- The segment decomposition of a template. -/
def scan (l : List Char) : List Item := scanFuel l.length l

/-- What envsubst emits for one segment: a literal character is copied
unchanged; a variable reference (braced or not) is replaced by the bound
value, or by nothing when unbound. -/
def renderItem (env : String → Option String) : Item → List Char
  | .lit c => [c]
  | .var n => valueOf env n
  | .varBraced n => valueOf env n

/-- The template characters a segment was scanned from. -/
def itemSource : Item → List Char
  | .lit c => [c]
  | .var n => '$' :: n.data
  | .varBraced n => '$' :: '{' :: (n.data ++ ['}'])

/-- Concatenated rendering of a segment list. -/
def renderAll (env : String → Option String) (items : List Item) : List Char :=
  items.foldr (fun i acc => renderItem env i ++ acc) []

/-- Concatenated source of a segment list. -/
def sourceAll (items : List Item) : List Char :=
  items.foldr (fun i acc => itemSource i ++ acc) []

lemma isNameChar_of_isNameStart {c : Char} (h : isNameStart c = true) :
    isNameChar c = true := by
  simp only [isNameStart, Bool.or_eq_true] at h
  simp only [isNameChar, Bool.or_eq_true]
  rcases h with h | h
  · exact Or.inl (Or.inl h)
  · exact Or.inr h

lemma dropWhile_length_le (p : Char → Bool) :
    ∀ l : List Char, (l.dropWhile p).length ≤ l.length := by
  intro l
  induction l with
  | nil => simp
  | cons a l ih =>
    rw [List.dropWhile_cons]
    by_cases hp : p a
    · simp only [hp, if_true]
      exact Nat.le_trans ih (Nat.le_succ _)
    · simp [hp]

lemma head_cons_of_head? {α : Type} {l : List α} {a : α} (h : l.head? = some a) :
    l = a :: l.tail := by
  cases l with
  | nil => simp at h
  | cons b bs => simp at h; simp [h]

lemma takeWhile_all_append (p : Char → Bool) :
    ∀ (xs post : List Char), (∀ c ∈ xs, p c = true) →
      (∀ c, post.head? = some c → p c = false) →
      (xs ++ post).takeWhile p = xs ∧ (xs ++ post).dropWhile p = post := by
  intro xs
  induction xs with
  | nil =>
    intro post _ hpost
    cases post with
    | nil => simp
    | cons c rest =>
      have hc : p c = false := hpost c rfl
      simp [List.takeWhile_cons, List.dropWhile_cons, hc]
  | cons x xs ih =>
    intro post hall hpost
    have hx : p x = true := hall x (List.mem_cons_self x xs)
    have hrest := ih post (fun c hc => hall c (List.mem_cons_of_mem x hc)) hpost
    simp only [List.cons_append, List.takeWhile_cons, List.dropWhile_cons, hx, if_true]
    exact ⟨by rw [hrest.1], hrest.2⟩

@[simp] lemma renderAll_nil (env : String → Option String) : renderAll env [] = [] := rfl

@[simp] lemma renderAll_cons (env : String → Option String) (i : Item) (is : List Item) :
    renderAll env (i :: is) = renderItem env i ++ renderAll env is := rfl

@[simp] lemma renderAll_append (env : String → Option String) (a b : List Item) :
    renderAll env (a ++ b) = renderAll env a ++ renderAll env b := by
  induction a with
  | nil => simp
  | cons i a ih => simp [ih]

@[simp] lemma sourceAll_nil : sourceAll [] = [] := rfl

@[simp] lemma sourceAll_cons (i : Item) (is : List Item) :
    sourceAll (i :: is) = itemSource i ++ sourceAll is := rfl

@[simp] lemma sourceAll_append (a b : List Item) :
    sourceAll (a ++ b) = sourceAll a ++ sourceAll b := by
  induction a with
  | nil => simp
  | cons i a ih => simp [ih]

@[simp] lemma renderAll_map_lit (env : String → Option String) (xs : List Char) :
    renderAll env (xs.map Item.lit) = xs := by
  induction xs with
  | nil => simp
  | cons c xs ih => simp [renderItem, ih]

@[simp] lemma sourceAll_map_lit (xs : List Char) :
    sourceAll (xs.map Item.lit) = xs := by
  induction xs with
  | nil => simp
  | cons c xs ih => simp [itemSource, ih]

lemma envsubstFuel_eq_renderAll (env : String → Option String) :
    ∀ (fuel : Nat) (l : List Char),
      envsubstFuel env fuel l = renderAll env (scanFuel fuel l) := by
  intro fuel
  induction fuel with
  | zero => intro l; rfl
  | succ n ih =>
    intro l
    cases l with
    | nil => rfl
    | cons c cs =>
      by_cases hc : c = '$'
      · subst hc
        cases cs with
        | nil => rfl
        | cons d ds =>
          by_cases hd : d = '{'
          · subst hd
            cases ds with
            | nil => rfl
            | cons e es =>
              by_cases he : isNameStart e
              · by_cases hbr : ((e :: es).dropWhile isNameChar).head? = some '}'
                · simp [envsubstFuel, scanFuel, he, hbr, ih, renderItem]
                · simp [envsubstFuel, scanFuel, he, hbr, ih, renderItem]
              · simp [envsubstFuel, scanFuel, he, ih, renderItem]
          · by_cases hds : isNameStart d
            · simp [envsubstFuel, scanFuel, hd, hds, ih, renderItem]
            · simp [envsubstFuel, scanFuel, hd, hds, ih, renderItem]
      · simp [envsubstFuel, scanFuel, hc, ih, renderItem]

lemma envsubst_eq_renderAll_scan (env : String → Option String) (l : List Char) :
    envsubst env l = renderAll env (scan l) :=
  envsubstFuel_eq_renderAll env l.length l

lemma scanFuel_nil : ∀ fuel : Nat, scanFuel fuel [] = [] := by
  intro fuel; cases fuel <;> rfl

lemma sourceAll_scanFuel :
    ∀ (fuel : Nat) (l : List Char), l.length ≤ fuel →
      sourceAll (scanFuel fuel l) = l := by
  intro fuel
  induction fuel with
  | zero =>
    intro l hl
    have hnil : l = [] := List.eq_nil_of_length_eq_zero (Nat.le_zero.mp hl)
    subst hnil; rfl
  | succ n ih =>
    intro l hl
    cases l with
    | nil => rfl
    | cons c cs =>
      by_cases hc : c = '$'
      · subst hc
        cases cs with
        | nil => simp [scanFuel, itemSource]
        | cons d ds =>
          by_cases hd : d = '{'
          · subst hd
            cases ds with
            | nil => simp [scanFuel, itemSource]
            | cons e es =>
              simp only [List.length_cons] at hl
              by_cases he : isNameStart e
              · have hchar : isNameChar e = true := isNameChar_of_isNameStart he
                have hdw : (e :: es).dropWhile isNameChar = es.dropWhile isNameChar := by
                  simp [List.dropWhile_cons, hchar]
                have hdwlen : ((e :: es).dropWhile isNameChar).length ≤ es.length := by
                  rw [hdw]; exact dropWhile_length_le _ es
                have htwdw : (e :: es).takeWhile isNameChar ++
                    (e :: es).dropWhile isNameChar = e :: es :=
                  List.takeWhile_append_dropWhile isNameChar (e :: es)
                by_cases hbr : ((e :: es).dropWhile isNameChar).head? = some '}'
                · have hshape := head_cons_of_head? hbr
                  have htl := List.length_tail ((e :: es).dropWhile isNameChar)
                  have hrec : sourceAll (scanFuel n ((e :: es).dropWhile isNameChar).tail)
                      = ((e :: es).dropWhile isNameChar).tail := ih _ (by omega)
                  have hfull : (e :: es).takeWhile isNameChar ++
                      '}' :: ((e :: es).dropWhile isNameChar).tail = e :: es := by
                    rw [← hshape]; exact htwdw
                  simp only [scanFuel, he, if_true, hbr, eq_self_iff_true, sourceAll_cons,
                    itemSource, hrec, List.cons_append, List.append_assoc,
                    List.singleton_append, List.cons.injEq, true_and]
                  exact hfull
                · have hrec : sourceAll (scanFuel n ((e :: es).dropWhile isNameChar))
                      = (e :: es).dropWhile isNameChar := ih _ (by omega)
                  simp only [scanFuel, he, if_true, hbr, if_false, sourceAll_cons,
                    sourceAll_append, sourceAll_map_lit, itemSource, hrec, List.cons_append,
                    List.append_assoc, List.cons.injEq, true_and, List.singleton_append]
                  simp only [List.nil_append, List.cons.injEq, true_and]
                  exact htwdw
              · have hrec : sourceAll (scanFuel n (e :: es)) = e :: es :=
                  ih _ (by simp only [List.length_cons]; omega)
                simp [scanFuel, he, itemSource, hrec]
          · simp only [List.length_cons] at hl
            by_cases hds : isNameStart d
            · have hchar : isNameChar d = true := isNameChar_of_isNameStart hds
              have hdw : (d :: ds).dropWhile isNameChar = ds.dropWhile isNameChar := by
                simp [List.dropWhile_cons, hchar]
              have hdwlen : ((d :: ds).dropWhile isNameChar).length ≤ ds.length := by
                rw [hdw]; exact dropWhile_length_le _ ds
              have htwdw : (d :: ds).takeWhile isNameChar ++
                  (d :: ds).dropWhile isNameChar = d :: ds :=
                List.takeWhile_append_dropWhile isNameChar (d :: ds)
              have hrec : sourceAll (scanFuel n ((d :: ds).dropWhile isNameChar))
                  = (d :: ds).dropWhile isNameChar := ih _ (by omega)
              simp only [scanFuel, hd, if_false, hds, if_true, sourceAll_cons, itemSource,
                hrec, List.cons_append, List.append_assoc, List.cons.injEq, true_and]
              exact htwdw
            · have hrec : sourceAll (scanFuel n (d :: ds)) = d :: ds :=
                ih _ (by simp only [List.length_cons]; omega)
              simp [scanFuel, hd, hds, itemSource, hrec]
      · have hrec : sourceAll (scanFuel n cs) = cs := by
          refine ih _ ?_
          simp only [List.length_cons] at hl
          omega
        simp [scanFuel, hc, itemSource, hrec]

lemma sourceAll_scan (l : List Char) : sourceAll (scan l) = l :=
  sourceAll_scanFuel l.length l (Nat.le_refl _)

lemma scanFuel_congr :
    ∀ (f : Nat) (l : List Char) (g : Nat), l.length ≤ f → l.length ≤ g →
      scanFuel f l = scanFuel g l := by
  intro f
  induction f with
  | zero =>
    intro l g hf _
    have hnil : l = [] := List.eq_nil_of_length_eq_zero (Nat.le_zero.mp hf)
    subst hnil; rw [scanFuel_nil, scanFuel_nil]
  | succ n ih =>
    intro l g hf hg
    cases l with
    | nil => rw [scanFuel_nil, scanFuel_nil]
    | cons c cs =>
      cases g with
      | zero => simp at hg
      | succ m =>
        simp only [List.length_cons] at hf hg
        by_cases hc : c = '$'
        · subst hc
          cases cs with
          | nil => rfl
          | cons d ds =>
            simp only [List.length_cons] at hf hg
            by_cases hd : d = '{'
            · subst hd
              cases ds with
              | nil => rfl
              | cons e es =>
                simp only [List.length_cons] at hf hg
                by_cases he : isNameStart e
                · have hchar : isNameChar e = true := isNameChar_of_isNameStart he
                  have hdw : (e :: es).dropWhile isNameChar = es.dropWhile isNameChar := by
                    simp [List.dropWhile_cons, hchar]
                  have hdwlen : ((e :: es).dropWhile isNameChar).length ≤ es.length := by
                    rw [hdw]; exact dropWhile_length_le _ es
                  by_cases hbr : ((e :: es).dropWhile isNameChar).head? = some '}'
                  · have htl := List.length_tail ((e :: es).dropWhile isNameChar)
                    have hrec : scanFuel n ((e :: es).dropWhile isNameChar).tail
                        = scanFuel m ((e :: es).dropWhile isNameChar).tail :=
                      ih _ m (by omega) (by omega)
                    simp [scanFuel, he, hbr, hrec]
                  · have hrec : scanFuel n ((e :: es).dropWhile isNameChar)
                        = scanFuel m ((e :: es).dropWhile isNameChar) :=
                      ih _ m (by omega) (by omega)
                    simp [scanFuel, he, hbr, hrec]
                · have hrec : scanFuel n (e :: es) = scanFuel m (e :: es) :=
                    ih _ m (by simp only [List.length_cons]; omega)
                      (by simp only [List.length_cons]; omega)
                  simp [scanFuel, he, hrec]
            · by_cases hds : isNameStart d
              · have hchar : isNameChar d = true := isNameChar_of_isNameStart hds
                have hdw : (d :: ds).dropWhile isNameChar = ds.dropWhile isNameChar := by
                  simp [List.dropWhile_cons, hchar]
                have hdwlen : ((d :: ds).dropWhile isNameChar).length ≤ ds.length := by
                  rw [hdw]; exact dropWhile_length_le _ ds
                have hrec : scanFuel n ((d :: ds).dropWhile isNameChar)
                    = scanFuel m ((d :: ds).dropWhile isNameChar) :=
                  ih _ m (by omega) (by omega)
                simp [scanFuel, hd, hds, hrec]
              · have hrec : scanFuel n (d :: ds) = scanFuel m (d :: ds) :=
                  ih _ m (by simp only [List.length_cons]; omega)
                    (by simp only [List.length_cons]; omega)
                simp [scanFuel, hd, hds, hrec]
        · have hrec : scanFuel n cs = scanFuel m cs := ih _ m (by omega) (by omega)
          simp [scanFuel, hc, hrec]

lemma scanFuel_eq_scan {fuel : Nat} {l : List Char} (h : l.length ≤ fuel) :
    scanFuel fuel l = scan l :=
  scanFuel_congr fuel l l.length h (Nat.le_refl _)

lemma headNotName_head? {post : List Char} (h : headNotName post = true) :
    ∀ ch, post.head? = some ch → isNameChar ch = false := by
  intro ch hch
  cases post with
  | nil => simp at hch
  | cons p ps =>
    simp only [List.head?_cons, Option.some.injEq] at hch
    subst hch
    simpa [headNotName] using h

lemma validName_all {n : List Char} (h : validName n = true) :
    ∀ c ∈ n, isNameChar c = true := by
  cases n with
  | nil => simp [validName] at h
  | cons c cs =>
    simp only [validName, Bool.and_eq_true] at h
    intro x hx
    rcases List.mem_cons.mp hx with rfl | hx
    · exact isNameChar_of_isNameStart h.1
    · exact List.all_eq_true.mp h.2 x hx

lemma scan_dollar_name (n post : List Char) (h1 : validName n = true)
    (h2 : headNotName post = true) :
    scan ('$' :: (n ++ post)) = Item.var ⟨n⟩ :: scan post := by
  cases n with
  | nil => simp [validName] at h1
  | cons c cs =>
    have hstart : isNameStart c = true := by
      simp only [validName, Bool.and_eq_true] at h1; exact h1.1
    have hallc : ∀ x ∈ c :: cs, isNameChar x = true := validName_all h1
    have hsplit := takeWhile_all_append isNameChar (c :: cs) post hallc (headNotName_head? h2)
    have hcne : ¬(c = '{') := by
      intro hc; subst hc; simp [isNameStart, Char.isAlpha, Char.isUpper, Char.isLower] at hstart
    have hcds : ¬(c = '$') := by
      intro hc; subst hc; simp [isNameStart, Char.isAlpha, Char.isUpper, Char.isLower] at hstart
    show scanFuel ('$' :: (c :: cs ++ post)).length ('$' :: (c :: cs ++ post)) = _
    simp only [List.length_cons, List.cons_append, scanFuel, eq_self_iff_true, if_true,
      hcne, if_false, hstart]
    rw [show c :: (cs ++ post) = (c :: cs) ++ post from rfl, hsplit.1, hsplit.2]
    rw [scanFuel_eq_scan (by simp [List.length_append]; omega)]

lemma scan_braced_name (n post : List Char) (h1 : validName n = true) :
    scan ('$' :: '{' :: (n ++ '}' :: post)) = Item.varBraced ⟨n⟩ :: scan post := by
  cases n with
  | nil => simp [validName] at h1
  | cons c cs =>
    have hstart : isNameStart c = true := by
      simp only [validName, Bool.and_eq_true] at h1; exact h1.1
    have hallc : ∀ x ∈ c :: cs, isNameChar x = true := validName_all h1
    have hbraceNot : ∀ ch, ('}' :: post).head? = some ch → isNameChar ch = false := by
      intro ch hch
      simp only [List.head?_cons, Option.some.injEq] at hch
      subst hch
      decide
    have hsplit := takeWhile_all_append isNameChar (c :: cs) ('}' :: post) hallc hbraceNot
    show scanFuel ('$' :: '{' :: (c :: cs ++ '}' :: post)).length
      ('$' :: '{' :: (c :: cs ++ '}' :: post)) = _
    simp only [List.length_cons, List.cons_append, scanFuel, eq_self_iff_true, if_true,
      hstart]
    rw [show c :: (cs ++ '}' :: post) = (c :: cs) ++ '}' :: post from rfl, hsplit.1, hsplit.2]
    simp only [List.head?_cons, Option.some.injEq, eq_self_iff_true, if_true, List.tail_cons]
    rw [scanFuel_eq_scan (by simp [List.length_append]; omega)]

lemma envsubst_dollar_name (env : String → Option String) (n post : List Char)
    (h1 : validName n = true) (h2 : headNotName post = true) :
    envsubst env ('$' :: (n ++ post)) = valueOf env ⟨n⟩ ++ envsubst env post := by
  rw [envsubst_eq_renderAll_scan, scan_dollar_name n post h1 h2, renderAll_cons,
    ← envsubst_eq_renderAll_scan]
  rfl

lemma envsubst_braced_name (env : String → Option String) (n post : List Char)
    (h1 : validName n = true) :
    envsubst env ('$' :: '{' :: (n ++ '}' :: post)) = valueOf env ⟨n⟩ ++ envsubst env post := by
  rw [envsubst_eq_renderAll_scan, scan_braced_name n post h1, renderAll_cons,
    ← envsubst_eq_renderAll_scan]
  rfl

/-- A word occurs at the front of a character list. -/
def startsWithSeq : List Char → List Char → Bool
  | [], _ => true
  | _ :: _, [] => false
  | a :: as, b :: bs => a == b && startsWithSeq as bs

/-- A word occurs contiguously somewhere in a character list. -/
def occursIn (needle : List Char) : List Char → Bool
  | [] => needle.isEmpty
  | c :: rest => startsWithSeq needle (c :: rest) || occursIn needle rest

/-- Filesystem state touched by the entrypoint: the template file and the
generated artifact, each either present with its contents or absent. -/
structure FS where
  template : Option String
  envJs : Option String
deriving DecidableEq

/-- Outcome of running entrypoint.sh: either the shell exits with a status
before reaching the `exec "$@"` handoff, or the handoff replaces the shell
with the Static Asset Host, which then serves the resulting filesystem. -/
inductive RunResult where
  | failed (exitCode : Nat) (fs : FS)
  | serving (fs : FS)
deriving DecidableEq

/-- envsubst applied to a whole document. -/
def resolveDoc (env : String → Option String) (t : String) : String :=
  ⟨envsubst env t.data⟩

/-- The entrypoint script `set -e; envsubst < env.template.js > env.js;
exec "$@"` (src/unnamed/part_003).  When the template cannot be opened the
input redirection fails before the output redirection is opened, so `set -e`
aborts the script with a nonzero status and the artifact is untouched;
otherwise env.js is overwritten with the resolved document and control is
handed to the host via exec. -/
def entrypoint (env : String → Option String) (fs : FS) : RunResult :=
  match fs.template with
  | none => .failed 1 fs
  | some t => .serving ⟨some t, some (resolveDoc env t)⟩

/-- Whether the run reached the `exec "$@"` handoff and started the host. -/
def startsHost : RunResult → Bool
  | .failed _ _ => false
  | .serving _ => true

/-- The process exit status of a failed run (0 for a run that went on to
serve). -/
def exitCodeOf : RunResult → Nat
  | .failed code _ => code
  | .serving _ => 0

/-- The generated artifact (env.js contents) after the run. -/
def artifactOf : RunResult → Option String
  | .failed _ fs => fs.envJs
  | .serving fs => fs.envJs

/-- The value of `window?.env?.API_URL` in a browser state: `window` itself
may be undefined, `window.env` may be undefined, and the `API_URL` property
may be absent; optional chaining yields undefined in each of those cases
instead of throwing. -/
def optChainApiUrl (w : Option (Option (String → Option String))) : Option String :=
  match w with
  | none => none
  | some none => none
  | some (some envObj) => envObj "API_URL"

/-- JavaScript `url || ""`: undefined and the empty string are falsy and
fall back to the empty string; any other string passes through. -/
def jsOrEmpty : Option String → String
  | none => ""
  | some s => if s = "" then "" else s

/-- The apiUrl value displayed by the Home component (src/app/page.tsx):
`const url = window?.env?.API_URL; setApiUrl(url || "")`.  A total
function of the browser state: evaluating it never throws, even when
`window.env` is missing entirely. -/
def homeApiUrl (w : Option (Option (String → Option String))) : String :=
  jsOrEmpty (optChainApiUrl w)

/-- The spec's example template, as a character sequence. -/
def exTemplate : List Char :=
  "GLOBAL.env = \x7b API_URL: \"$API_URL\", NODE_ENV: \"$NODE_ENV\" \x7d;".data

/-- Binding set with both example variables set. -/
def exBindingsFull : String → Option String := fun n =>
  if n = "API_URL" then some "https://api.x.com"
  else if n = "NODE_ENV" then some "production" else none

/-- Binding set with only API_URL set (NODE_ENV unbound). -/
def exBindingsPartial : String → Option String := fun n =>
  if n = "API_URL" then some "https://api.x.com" else none

/-- Binding set binding only the proper prefix API of API_URL. -/
def exBindingsPrefixOnly : String → Option String := fun n =>
  if n = "API" then some "x" else none

/-- Binding set whose value for A is itself placeholder syntax. -/
def exBindingsSelfRef : String → Option String := fun n =>
  if n = "A" then some "$OTHER" else if n = "OTHER" then some "x" else none

/-- Binding set whose value contains a double-quote character. -/
def exBindingsQuote : String → Option String := fun n =>
  if n = "Q" then some "a\"b" else none

/-- Binding set for a lowercase variable name. -/
def exBindingsLower : String → Option String := fun n =>
  if n = "apiUrl_v2" then some "V" else none

/-- A browser state in which env.js has run and set a non-empty API_URL. -/
def exWindow : Option (Option (String → Option String)) :=
  some (some (fun k => if k = "API_URL" then some "https://api.x.com" else none))

/-- C1 (binding coverage): the output of resolve(T, B) is the segment-wise
rendering of T's token decomposition, in which every placeholder token whose
name is bound in B is rendered, at the token's position, as exactly the
bound value's characters — the literal string, not the placeholder token.
On the spec's example template with both variables bound, the output is the
expected concrete artifact and the placeholder tokens are gone. -/
theorem c1_binding_coverage (env : String → Option String) (T : List Char) :
    envsubst env T = renderAll env (scan T)
    ∧ (∀ n v, env n = some v →
        renderItem env (Item.var n) = v.data ∧ renderItem env (Item.varBraced n) = v.data)
    ∧ envsubst exBindingsFull exTemplate
        = "GLOBAL.env = \x7b API_URL: \"https://api.x.com\", NODE_ENV: \"production\" \x7d;".data
    ∧ occursIn "$API_URL".data (envsubst exBindingsFull exTemplate) = false := by
  refine ⟨envsubst_eq_renderAll_scan env T, ?_, by decide, by decide⟩
  intro n v hv
  exact ⟨by simp [renderItem, valueOf, hv], by simp [renderItem, valueOf, hv]⟩

/-- Witness for C1 at the example template and full binding set. -/
theorem c1_binding_coverage_witness :
    envsubst exBindingsFull exTemplate = renderAll exBindingsFull (scan exTemplate)
    ∧ renderItem exBindingsFull (Item.var "API_URL") = "https://api.x.com".data := by
  have h := c1_binding_coverage exBindingsFull exTemplate
  exact ⟨h.1, (h.2.1 "API_URL" "https://api.x.com" (by decide)).1⟩

/-- C2 (non-placeholder text preserved): scanning decomposes the template
exactly — concatenating the segment sources reproduces T byte for byte —
the output is the concatenation of the per-segment renderings in the same
order, and a literal segment (any character outside a placeholder token)
renders to itself; hence the generated artifact is byte-identical to the
template everywhere outside the substituted placeholder tokens. -/
theorem c2_frame_preserved (env : String → Option String) (T : List Char) :
    sourceAll (scan T) = T
    ∧ envsubst env T = renderAll env (scan T)
    ∧ ∀ c, renderItem env (Item.lit c) = [c] :=
  ⟨sourceAll_scan T, envsubst_eq_renderAll_scan env T, fun _ => rfl⟩

/-- C3 counterexample: resolving the example template with NODE_ENV unbound
does not retain the literal `$NODE_ENV` token — envsubst substitutes the
empty string, so the output reads `NODE_ENV: ""` and the token is gone. -/
theorem c3_unbound_cex :
    envsubst exBindingsPartial exTemplate
      = "GLOBAL.env = \x7b API_URL: \"https://api.x.com\", NODE_ENV: \"\" \x7d;".data
    ∧ occursIn "$NODE_ENV".data (envsubst exBindingsPartial exTemplate) = false :=
  ⟨by decide, by decide⟩

/-- C3 amended: unbound placeholders are substituted with the empty string
(envsubst's silent-empty policy), not passed through: every unbound
placeholder token renders to nothing, and resolving the example template
against bindings lacking NODE_ENV yields `NODE_ENV: ""` in the output. -/
theorem c3_unbound_empty (env : String → Option String) (T : List Char) :
    envsubst env T = renderAll env (scan T)
    ∧ (∀ n, env n = none →
        renderItem env (Item.var n) = [] ∧ renderItem env (Item.varBraced n) = [])
    ∧ envsubst exBindingsPartial exTemplate
        = "GLOBAL.env = \x7b API_URL: \"https://api.x.com\", NODE_ENV: \"\" \x7d;".data := by
  refine ⟨envsubst_eq_renderAll_scan env T, ?_, by decide⟩
  intro n hn
  exact ⟨by simp [renderItem, valueOf, hn], by simp [renderItem, valueOf, hn]⟩

/-- Witness for the amended C3 at the partial binding set. -/
theorem c3_unbound_empty_witness :
    renderItem exBindingsPartial (Item.var "NODE_ENV") = []
    ∧ envsubst exBindingsPartial exTemplate
        = "GLOBAL.env = \x7b API_URL: \"https://api.x.com\", NODE_ENV: \"\" \x7d;".data := by
  have h := c3_unbound_empty exBindingsPartial exTemplate
  exact ⟨(h.2.1 "NODE_ENV" (by decide)).1, h.2.2⟩

/-- C4 (unbound policy determinism): envsubst applies the single fixed
policy of substituting the empty string: in the segment rendering of any
template against any binding set, every unbound placeholder token — braced
or unbraced, on every run — renders to the empty string, no exceptions. -/
theorem c4_unbound_policy (env : String → Option String) (T : List Char) :
    envsubst env T = renderAll env (scan T)
    ∧ ∀ n, env n = none →
        renderItem env (Item.var n) = [] ∧ renderItem env (Item.varBraced n) = [] := by
  refine ⟨envsubst_eq_renderAll_scan env T, ?_⟩
  intro n hn
  exact ⟨by simp [renderItem, valueOf, hn], by simp [renderItem, valueOf, hn]⟩

/-- Witness for C4 at the partial binding set. -/
theorem c4_unbound_policy_witness :
    envsubst exBindingsPartial exTemplate = renderAll exBindingsPartial (scan exTemplate)
    ∧ renderItem exBindingsPartial (Item.varBraced "NODE_ENV") = [] := by
  have h := c4_unbound_policy exBindingsPartial exTemplate
  exact ⟨h.1, (h.2 "NODE_ENV" (by decide)).2⟩

/-- C5 (fatal on missing template with no partial effect): when the template
file is absent or unreadable, the entrypoint exits with a nonzero status,
the Static Asset Host is never started — the `exec "$@"` handoff is not
reached — and the generated artifact is exactly what it was before the run,
so none is produced. -/
theorem c5_fatal_missing_template (env : String → Option String) (fs : FS)
    (h : fs.template = none) :
    startsHost (entrypoint env fs) = false
    ∧ exitCodeOf (entrypoint env fs) ≠ 0
    ∧ artifactOf (entrypoint env fs) = fs.envJs := by
  cases fs with
  | mk t a =>
    simp only at h
    subst h
    exact ⟨rfl, by simp [entrypoint, exitCodeOf], rfl⟩

/-- Witness for C5: a filesystem with no template and no prior artifact. -/
theorem c5_fatal_missing_template_witness :
    startsHost (entrypoint exBindingsFull ⟨none, none⟩) = false
    ∧ exitCodeOf (entrypoint exBindingsFull ⟨none, none⟩) ≠ 0
    ∧ artifactOf (entrypoint exBindingsFull ⟨none, none⟩) = (⟨none, none⟩ : FS).envJs :=
  c5_fatal_missing_template exBindingsFull ⟨none, none⟩ rfl

/-- C6 counterexample: with API bound to x and API_URL unbound, the template
`url: $API_URL;` resolves to `url: ;` — the `$API_URL` token is not left
intact (it is scanned as the single unbound name API_URL and replaced by the
empty string), so the claim's concrete expectation fails. -/
theorem c6_partial_match_cex :
    envsubst exBindingsPrefixOnly "url: $API_URL;".data = "url: ;".data
    ∧ occursIn "$API_URL".data (envsubst exBindingsPrefixOnly "url: $API_URL;".data)
        = false :=
  ⟨by decide, by decide⟩

/-- C6 amended: placeholder matching is maximal-munch and unambiguous: a
complete run of name characters after `$` is scanned as one placeholder
token, so a binding whose name is a proper prefix of a placeholder's name
never clobbers part of it — the prefix value is not inserted and no stray
suffix remains — but the unbound full-name token is replaced by the empty
string rather than left intact. -/
theorem c6_no_partial_clobber (pre suf post : List Char)
    (h1 : validName (pre ++ suf) = true) (h2 : headNotName post = true) :
    scan ('$' :: ((pre ++ suf) ++ post)) = Item.var ⟨pre ++ suf⟩ :: scan post
    ∧ envsubst exBindingsPrefixOnly "url: $API_URL;".data = "url: ;".data
    ∧ occursIn "x_URL".data (envsubst exBindingsPrefixOnly "url: $API_URL;".data) = false
    ∧ occursIn "_URL".data (envsubst exBindingsPrefixOnly "url: $API_URL;".data) = false :=
  ⟨scan_dollar_name (pre ++ suf) post h1 h2, by decide, by decide, by decide⟩

/-- Witness for the amended C6 with API a proper prefix of API_URL. -/
theorem c6_no_partial_clobber_witness :
    scan ('$' :: (("API".data ++ "_URL".data) ++ ";".data))
      = Item.var ⟨"API".data ++ "_URL".data⟩ :: scan ";".data
    ∧ occursIn "_URL".data (envsubst exBindingsPrefixOnly "url: $API_URL;".data) = false := by
  have h := c6_no_partial_clobber "API".data "_URL".data ";".data (by decide) (by decide)
  exact ⟨h.1, h.2.2.2⟩

/-- C7 (literal, single-pass, unescaped substitution): the output is the
one-pass segment rendering in which each bound placeholder is replaced by
the raw character sequence of its value — no escaping of quotes and no
re-scanning: a value containing a double quote is inserted verbatim, and a
value that is itself placeholder syntax appears in the output exactly as
given, with no recursive expansion. -/
theorem c7_literal_single_pass (env : String → Option String) (T : List Char) :
    envsubst env T = renderAll env (scan T)
    ∧ (∀ n v, env n = some v → renderItem env (Item.var n) = v.data)
    ∧ envsubst exBindingsSelfRef "A: $A".data = "A: $OTHER".data
    ∧ envsubst exBindingsQuote "q: \"$Q\"".data = "q: \"a\"b\"".data := by
  refine ⟨envsubst_eq_renderAll_scan env T, ?_, by decide, by decide⟩
  intro n v hv
  simp [renderItem, valueOf, hv]

/-- Witness for C7 at the self-referential binding set. -/
theorem c7_literal_single_pass_witness :
    renderItem exBindingsSelfRef (Item.var "A") = "$OTHER".data
    ∧ envsubst exBindingsSelfRef "A: $A".data = "A: $OTHER".data := by
  have h := c7_literal_single_pass exBindingsSelfRef "A: $A".data
  exact ⟨h.2.1 "A" "$OTHER" (by decide), h.2.2.1⟩

/-- C8 (resolution is a deterministic pure function of template and
bindings): a run over an intact template always hands off to the host with
the artifact equal to resolveDoc env t, a function of only the template and
the binding set; in particular two runs starting from different prior
artifact states produce byte-identical generated artifacts. -/
theorem c8_resolution_deterministic (env : String → Option String) (t : String)
    (a1 a2 : Option String) :
    entrypoint env ⟨some t, a1⟩ = RunResult.serving ⟨some t, some (resolveDoc env t)⟩
    ∧ artifactOf (entrypoint env ⟨some t, a1⟩) = artifactOf (entrypoint env ⟨some t, a2⟩) :=
  ⟨rfl, rfl⟩

/-- C9 (defensive client fallback): for every browser state, the Home
component displays window.env.API_URL when that is a non-empty string and
the empty string otherwise — including when the API_URL key is absent, when
window.env itself is undefined, and when the value is the empty string; the
read is a total function of the state (optional chaining), so it never
throws. -/
theorem c9_client_fallback (w : Option (Option (String → Option String))) :
    (∀ s, optChainApiUrl w = some s → s ≠ "" → homeApiUrl w = s)
    ∧ (optChainApiUrl w = none → homeApiUrl w = "")
    ∧ (optChainApiUrl w = some "" → homeApiUrl w = "")
    ∧ (w = none → homeApiUrl w = "")
    ∧ (w = some none → homeApiUrl w = "") := by
  refine ⟨?_, ?_, ?_, ?_, ?_⟩
  · intro s hs hne
    simp [homeApiUrl, hs, jsOrEmpty, hne]
  · intro hs
    simp [homeApiUrl, hs, jsOrEmpty]
  · intro hs
    simp [homeApiUrl, hs, jsOrEmpty]
  · intro hw
    subst hw
    rfl
  · intro hw
    subst hw
    rfl

/-- Witness for C9: a loaded env object with a non-empty API_URL, and a
state where window.env is undefined. -/
theorem c9_client_fallback_witness :
    homeApiUrl exWindow = "https://api.x.com" ∧ homeApiUrl (some none) = "" := by
  have h1 := c9_client_fallback exWindow
  have h2 := c9_client_fallback (some none)
  exact ⟨h1.1 "https://api.x.com" (by decide) (by decide), h2.2.2.2.2 rfl⟩

/-- C10 (recognized token grammar is envsubst's, wider than the spec's
[A-Z_][A-Z0-9_]*): a placeholder is $NAME or ${NAME} where NAME is any
shell variable name — ASCII letters of either case, digits and underscore,
not starting with a digit; a bound name containing lowercase letters is
substituted, the braced form is substituted, and a `$` not followed by a
valid name start (such as the literal text $1, or a trailing $) passes
through to the output unchanged. -/
theorem c10_token_grammar (env : String → Option String) :
    (∀ n post, validName n = true → headNotName post = true →
      envsubst env ('$' :: (n ++ post)) = valueOf env ⟨n⟩ ++ envsubst env post)
    ∧ (∀ n post, validName n = true →
      envsubst env ('$' :: '{' :: (n ++ '}' :: post)) = valueOf env ⟨n⟩ ++ envsubst env post)
    ∧ validName "apiUrl_v2".data = true
    ∧ envsubst exBindingsLower "u: $apiUrl_v2!".data = "u: V!".data
    ∧ envsubst exBindingsLower "u: ${apiUrl_v2}!".data = "u: V!".data
    ∧ (∀ env2 : String → Option String, envsubst env2 "$1".data = "$1".data)
    ∧ (∀ env2 : String → Option String, envsubst env2 "end$".data = "end$".data)
    ∧ validName "1X".data = false :=
  ⟨fun n post h1 h2 => envsubst_dollar_name env n post h1 h2,
   fun n post h1 => envsubst_braced_name env n post h1,
   by decide, by decide, by decide, fun _ => rfl, fun _ => rfl, by decide⟩

/-- Witness for C10 at a lowercase bound name. -/
theorem c10_token_grammar_witness :
    envsubst exBindingsLower ('$' :: ("apiUrl_v2".data ++ "!".data))
      = valueOf exBindingsLower ⟨"apiUrl_v2".data⟩ ++ envsubst exBindingsLower "!".data
    ∧ envsubst exBindingsLower "$1".data = "$1".data := by
  have h := c10_token_grammar exBindingsLower
  exact ⟨h.1 "apiUrl_v2".data "!".data (by decide) (by decide),
    h.2.2.2.2.2.1 exBindingsLower⟩

end NextStatic
